import Mathlib

/-!
The PodCapacityOfNode score plugin.

A shallow embedding of `pkg/podcapacityofnode/pod_capacity_of_node.go`:
the per-node capacity scorer (`score`, `Score`) and the batch normalizer
(`NormalizeScore`).

Go `int64` values are modelled as `Int`, and every arithmetic operation of
the source wraps its mathematical result into the two's-complement range
`[-2^63, 2^63 - 1]` (`wrap64`).  A Go runtime panic is modelled as the error
branch of `Except`.
-/

namespace PodCapacityOfNode

/-! ## int64 arithmetic -/

/-- Value of Go `math.MaxInt64`. -/
def maxInt64 : Int := 9223372036854775807

/-- Value of Go `math.MinInt64`. -/
def minInt64 : Int := -9223372036854775808

/-- Membership of an integer in the `int64` range. -/
def isInt64 (x : Int) : Prop := minInt64 ≤ x ∧ x ≤ maxInt64

instance (x : Int) : Decidable (isInt64 x) := by
  unfold isInt64; exact inferInstance

/-- Two's-complement reduction of a mathematical integer to `int64`. -/
def wrap64 (x : Int) : Int :=
  (x + 9223372036854775808) % 18446744073709551616 - 9223372036854775808

/-- Go `a + b` on `int64`. -/
def add64 (a b : Int) : Int := wrap64 (a + b)

/-- Go `a - b` on `int64`. -/
def sub64 (a b : Int) : Int := wrap64 (a - b)

/-- Go `a * b` on `int64`. -/
def mul64 (a b : Int) : Int := wrap64 (a * b)

/-- Go `a / b` on `int64` for a non-zero divisor: the quotient truncated
toward zero, wrapped (the only wrapping case is `MinInt64 / -1`).  The zero
divisor, on which Go panics, is handled by the callers. -/
def quo64 (a b : Int) : Int := wrap64 (Int.tdiv a b)

/-! ## Framework data -/

/-- Go runtime panics reachable in the plugin. -/
inductive Panic where
  | integerDivideByZero
  | nilPointerDereference
  deriving DecidableEq, Repr

/-- Status codes of `framework.Code` used by the plugin. -/
inductive Code where
  | Success
  | Error
  deriving DecidableEq, Repr

/-- A non-nil `*framework.Status`: a code and its message. -/
structure Status where
  code : Code
  message : String
  deriving DecidableEq, Repr

/-- Go `framework.NewStatus(code, reason)`. -/
def NewStatus (code : Code) (reason : String) : Status := ⟨code, reason⟩

/-- Modelled from the spec: `(*framework.Status).IsSuccess`, declared outside this
repository: a nil status, or a status whose code is `Success`, reports success. -/
def IsSuccess (status : Option Status) : Bool :=
  match status with
  | none => true
  | some st => st.code == Code.Success

/-- A pod as far as the plugin and its test can tell pods apart. -/
structure Pod where
  name : String
  terminating : Bool
  nominatedNodeName : String
  deriving DecidableEq, Repr

/-- The `*v1.Node` of a node info: its name and `Status.Capacity.Pods().Value()`. -/
structure Node where
  Name : String
  capacityPods : Int
  deriving DecidableEq, Repr

/-- Go `framework.NodeInfo`: the node (nil when unset) and the pods on it. -/
structure NodeInfo where
  node : Option Node
  Pods : List Pod
  deriving DecidableEq, Repr

/-- The part of `framework.Handle` the plugin calls. -/
structure Handle where
  /-- `SnapshotSharedLister().NodeInfos().Get(nodeName)`; the error carries `err.Error()`. -/
  getNodeInfo : String → Except String NodeInfo
  /-- `NominatedPodsForNode(nodeName)`. -/
  NominatedPodsForNode : String → List Pod

/-- Go `framework.NodeScore`. -/
structure NodeScore where
  Name : String
  Score : Int
  deriving DecidableEq, Repr

/-- Modelled from the spec: `framework.MaxNodeScore`, the constant MAX of the
normalized range, declared outside this repository (0-100 by the source comment). -/
def MaxNodeScore : Int := 100

/-- Modelled from the spec: `framework.MinNodeScore`, the constant MIN of the
normalized range, declared outside this repository (0-100 by the source comment). -/
def MinNodeScore : Int := 0

/-! ## The plugin -/

/-- Go `int64(len(xs))`. -/
def len64 {α : Type} (xs : List α) : Int := wrap64 (xs.length : Int)

/-- The method `score`: the raw capacity score of a node and a nil status, or a panic. -/
def score (h : Handle) (nodeInfo : NodeInfo) : Except Panic (Int × Option Status) :=
  match nodeInfo.node with
  | none => Except.error Panic.nilPointerDereference
  | some nd =>
    let nodeName := nd.Name
    let runningPodNum := len64 nodeInfo.Pods
    let nominatedPodNum := len64 (h.NominatedPodsForNode nodeName)
    let allPodNum := nd.capacityPods
    if allPodNum = 0 then Except.error Panic.integerDivideByZero
    else
      let scoreOfCapacity :=
        quo64 (mul64 (sub64 allPodNum (add64 runningPodNum nominatedPodNum)) 100) allPodNum
      Except.ok (scoreOfCapacity, none)

/-- The method `Score`: look the node up in the snapshot, then `score` it. -/
def Score (h : Handle) (nodeName : String) : Except Panic (Int × Option Status) :=
  match h.getNodeInfo nodeName with
  | Except.error err => Except.ok (0, some (NewStatus Code.Error err))
  | Except.ok nodeInfo => score h nodeInfo

/-- One iteration of the first loop of `NormalizeScore` on `(highest, lowest)`. -/
def scanStep (acc : Int × Int) (nodeScore : NodeScore) : Int × Int :=
  let highest := if nodeScore.Score > acc.1 then nodeScore.Score else acc.1
  let lowest := if nodeScore.Score < acc.2 then nodeScore.Score else acc.2
  (highest, lowest)

/-- The first loop of `NormalizeScore`: `(highest, lowest)` after the scan. -/
def scan (scores : List NodeScore) : Int × Int :=
  scores.foldl scanStep (-maxInt64, maxInt64)

/-- The body of the second loop of `NormalizeScore` for one entry. -/
def rescale (lowest oldRange newRange : Int) (nodeScore : NodeScore) : NodeScore :=
  if oldRange = 0 then
    { nodeScore with Score := MinNodeScore }
  else
    { nodeScore with
      Score := add64 (quo64 (mul64 (sub64 nodeScore.Score lowest) newRange) oldRange) MinNodeScore }

/-- The method `NormalizeScore`: the rewritten score list and the returned status. -/
def NormalizeScore (scores : List NodeScore) : List NodeScore × Option Status :=
  let highest := (scan scores).1
  let lowest := (scan scores).2
  let oldRange := sub64 highest lowest
  let newRange := sub64 MaxNodeScore MinNodeScore
  (scores.map (rescale lowest oldRange newRange), none)

/-- Test helper `makeNodeInfo`: terminating, nominated and regular pods on a node
of the given pod capacity. -/
def makeNodeInfo (node : String) (terminatingPodNumber nominatedPodNumber regularPodNumber : Nat)
    (pods : Int) : NodeInfo :=
  { node := some ⟨node, pods⟩
    Pods :=
      (List.range terminatingPodNumber).map
          (fun i => ⟨"tpod_" ++ node ++ "_" ++ toString (i + 1), true, ""⟩)
        ++ (List.range nominatedPodNumber).map
          (fun i => ⟨"npod_" ++ node ++ "_" ++ toString (i + 1), false, node⟩)
        ++ (List.range regularPodNumber).map
          (fun i => ⟨"rpod_" ++ node ++ "_" ++ toString (i + 1), false, ""⟩) }

/-- The handle the test builds: a snapshot lister over `nodes`, and a nominator
holding every pod of a node info whose `NominatedNodeName` is set, registered
under that node. -/
def testHandle (nodes : List NodeInfo) : Handle :=
  { getNodeInfo := fun nodeName =>
      match nodes.find? (fun ni => ni.node.map (fun nd => nd.Name) == some nodeName) with
      | some ni => Except.ok ni
      | none => Except.error ("unable to find node: " ++ nodeName)
    NominatedPodsForNode := fun nodeName =>
      (nodes.filter (fun ni => ni.node.map (fun nd => nd.Name) == some nodeName)).flatMap
        (fun ni => ni.Pods.filter (fun p => p.nominatedNodeName != "")) }


/-! ## Arithmetic lemmas -/

theorem wrap64_of_isInt64 {x : Int} (hx : isInt64 x) : wrap64 x = x := by
  unfold isInt64 minInt64 maxInt64 at hx
  unfold wrap64
  omega

theorem wrap64_isInt64 (x : Int) : isInt64 (wrap64 x) := by
  unfold isInt64 minInt64 maxInt64 wrap64
  omega

/-- Wrapping the operands of a sum, a difference or a product by a constant
does not change the wrapped result. -/
theorem wrap64_remaining (cap r n : Int) :
    wrap64 (wrap64 (cap - wrap64 (wrap64 r + wrap64 n)) * 100) = wrap64 ((cap - (r + n)) * 100) := by
  unfold wrap64
  omega

theorem tdiv_neg_num (a b : Int) (ha : a ≤ 0) (hb : 0 < b) :
    Int.tdiv a b = -((-a) / b) := by
  have h := Int.neg_tdiv (-a) b
  rw [neg_neg] at h
  rw [h, Int.tdiv_eq_ediv (by omega) (by omega)]

theorem tdiv_isInt64 {a b : Int} (ha : isInt64 a) (hb : 0 < b) : isInt64 (Int.tdiv a b) := by
  unfold isInt64 minInt64 maxInt64 at *
  rcases le_total 0 a with h0 | h0
  · rw [Int.tdiv_eq_ediv h0 (by omega)]
    have h1 : 0 ≤ a / b := Int.ediv_nonneg h0 (by omega)
    have h2 : a / b ≤ a := Int.ediv_le_self b h0
    omega
  · rw [tdiv_neg_num a b h0 hb]
    have h1 : 0 ≤ (-a) / b := Int.ediv_nonneg (by omega) (by omega)
    have h2 : (-a) / b ≤ -a := Int.ediv_le_self b (by omega)
    omega

/-- The truncated quotient of a scaled offset by the spread stays between 0 and the scale. -/
theorem tdiv_offset_bounds {d w : Int} (hd0 : 0 ≤ d) (hdw : d ≤ w) (hw : 0 < w) :
    0 ≤ Int.tdiv (d * 100) w ∧ Int.tdiv (d * 100) w ≤ 100 := by
  rw [Int.tdiv_eq_ediv (by omega) (by omega)]
  constructor
  · exact Int.ediv_nonneg (by omega) (by omega)
  · exact Int.ediv_le_of_le_mul hw (by omega)

/-! ## The second loop on one entry -/

theorem newRange_eq : sub64 MaxNodeScore MinNodeScore = 100 := by
  decide

/-- Without overflow the loop body computes the linear map on mathematical integers. -/
theorem rescale_score {lo hi : Int} (ns : NodeScore) (hlo : lo ≤ ns.Score) (hhi : ns.Score ≤ hi)
    (hne : lo < hi) (hfit : (hi - lo) * 100 ≤ maxInt64) :
    rescale lo (sub64 hi lo) (sub64 MaxNodeScore MinNodeScore) ns =
      { ns with Score := Int.tdiv ((ns.Score - lo) * (MaxNodeScore - MinNodeScore)) (hi - lo)
                  + MinNodeScore } := by
  have hb := tdiv_offset_bounds (d := ns.Score - lo) (w := hi - lo) (by omega) (by omega) (by omega)
  have hr : sub64 hi lo = hi - lo := by
    unfold sub64; apply wrap64_of_isInt64
    unfold isInt64 minInt64; unfold maxInt64 at hfit; unfold maxInt64; omega
  have hs : sub64 ns.Score lo = ns.Score - lo := by
    unfold sub64; apply wrap64_of_isInt64
    unfold isInt64 minInt64; unfold maxInt64 at hfit; unfold maxInt64; omega
  have hm : mul64 (ns.Score - lo) 100 = (ns.Score - lo) * 100 := by
    unfold mul64; apply wrap64_of_isInt64
    unfold isInt64 minInt64; unfold maxInt64 at hfit; unfold maxInt64; omega
  have hq : quo64 ((ns.Score - lo) * 100) (hi - lo) = Int.tdiv ((ns.Score - lo) * 100) (hi - lo) := by
    unfold quo64; apply wrap64_of_isInt64
    unfold isInt64 minInt64 maxInt64; omega
  have ha : add64 (Int.tdiv ((ns.Score - lo) * 100) (hi - lo)) MinNodeScore
      = Int.tdiv ((ns.Score - lo) * 100) (hi - lo) := by
    unfold add64 MinNodeScore; rw [add_zero]; apply wrap64_of_isInt64
    unfold isInt64 minInt64 maxInt64; omega
  have hz : ¬ (hi - lo = 0) := by omega
  unfold rescale
  rw [newRange_eq, hr, if_neg hz, hs, hm, hq, ha]
  simp [MaxNodeScore, MinNodeScore]

/-! ## The first loop -/

theorem foldl_scanStep_fst (l : List NodeScore) (acc : Int × Int) :
    acc.1 ≤ (l.foldl scanStep acc).1 ∧ (∀ s ∈ l, s.Score ≤ (l.foldl scanStep acc).1) ∧
      ((l.foldl scanStep acc).1 = acc.1 ∨ ∃ s ∈ l, (l.foldl scanStep acc).1 = s.Score) := by
  induction l generalizing acc with
  | nil => simp
  | cons x xs ih =>
    obtain ⟨h1, h2, h3⟩ := ih (scanStep acc x)
    have hstep : (scanStep acc x).1 = if x.Score > acc.1 then x.Score else acc.1 := rfl
    simp only [List.foldl_cons, List.mem_cons, forall_eq_or_imp, exists_eq_or_imp]
    by_cases hx : x.Score > acc.1
    · rw [hstep, if_pos hx] at h1 h3
      refine ⟨by omega, ⟨h1, h2⟩, ?_⟩
      rcases h3 with h3 | h3
      · exact Or.inr (Or.inl h3)
      · exact Or.inr (Or.inr h3)
    · rw [hstep, if_neg hx] at h1 h3
      refine ⟨h1, ⟨by omega, h2⟩, ?_⟩
      rcases h3 with h3 | h3
      · exact Or.inl h3
      · exact Or.inr (Or.inr h3)

theorem foldl_scanStep_snd (l : List NodeScore) (acc : Int × Int) :
    (l.foldl scanStep acc).2 ≤ acc.2 ∧ (∀ s ∈ l, (l.foldl scanStep acc).2 ≤ s.Score) ∧
      ((l.foldl scanStep acc).2 = acc.2 ∨ ∃ s ∈ l, (l.foldl scanStep acc).2 = s.Score) := by
  induction l generalizing acc with
  | nil => simp
  | cons x xs ih =>
    obtain ⟨h1, h2, h3⟩ := ih (scanStep acc x)
    have hstep : (scanStep acc x).2 = if x.Score < acc.2 then x.Score else acc.2 := rfl
    simp only [List.foldl_cons, List.mem_cons, forall_eq_or_imp, exists_eq_or_imp]
    by_cases hx : x.Score < acc.2
    · rw [hstep, if_pos hx] at h1 h3
      refine ⟨by omega, ⟨h1, h2⟩, ?_⟩
      rcases h3 with h3 | h3
      · exact Or.inr (Or.inl h3)
      · exact Or.inr (Or.inr h3)
    · rw [hstep, if_neg hx] at h1 h3
      refine ⟨h1, ⟨by omega, h2⟩, ?_⟩
      rcases h3 with h3 | h3
      · exact Or.inl h3
      · exact Or.inr (Or.inr h3)

/-- The scan finds the maximum whenever the maximum is not below the initial tracker. -/
theorem scan_highest {scores : List NodeScore} {hi : Int} (hub : ∀ s ∈ scores, s.Score ≤ hi)
    (hmem : ∃ s ∈ scores, s.Score = hi) (hinit : -maxInt64 ≤ hi) : (scan scores).1 = hi := by
  obtain ⟨h1, h2, h3⟩ := foldl_scanStep_fst scores (-maxInt64, maxInt64)
  obtain ⟨m, hm, hmhi⟩ := hmem
  have hge := h2 m hm
  unfold scan
  rcases h3 with h3 | ⟨s, hs, h3⟩
  · simp only at h3; omega
  · have := hub s hs; omega

/-- The scan finds the minimum of any batch of `int64` scores that has one. -/
theorem scan_lowest {scores : List NodeScore} {lo : Int} (hlb : ∀ s ∈ scores, lo ≤ s.Score)
    (hmem : ∃ s ∈ scores, s.Score = lo) (hinit : lo ≤ maxInt64) : (scan scores).2 = lo := by
  obtain ⟨h1, h2, h3⟩ := foldl_scanStep_snd scores (-maxInt64, maxInt64)
  obtain ⟨m, hm, hmlo⟩ := hmem
  have hge := h2 m hm
  unfold scan
  rcases h3 with h3 | ⟨s, hs, h3⟩
  · simp only at h3; omega
  · have := hlb s hs; omega


/-! ## The capacity scorer -/

/-- On a node with a non-zero capacity `score` returns the wrapped formula and a nil status. -/
theorem score_ok (h : Handle) (ni : NodeInfo) (nd : Node) (hnode : ni.node = some nd)
    (hcap : nd.capacityPods ≠ 0) :
    score h ni = Except.ok
      (quo64 (mul64 (sub64 nd.capacityPods
        (add64 (len64 ni.Pods) (len64 (h.NominatedPodsForNode nd.Name)))) 100) nd.capacityPods,
        none) := by
  unfold score
  rw [hnode]
  simp only [if_neg hcap]

/-- On a node whose pod capacity is zero `score` panics on the division. -/
theorem score_zero_capacity (h : Handle) (ni : NodeInfo) (nd : Node) (hnode : ni.node = some nd)
    (hcap : nd.capacityPods = 0) : score h ni = Except.error Panic.integerDivideByZero := by
  unfold score
  rw [hnode]
  simp only [if_pos hcap]

/-- Without overflow of the scaled remainder `score` is the formula on mathematical integers. -/
theorem score_exact (h : Handle) (ni : NodeInfo) (nd : Node) (hnode : ni.node = some nd)
    (hcap : 0 < nd.capacityPods)
    (hfit : isInt64 ((nd.capacityPods
      - ((ni.Pods.length : Int) + ((h.NominatedPodsForNode nd.Name).length : Int))) * 100)) :
    score h ni = Except.ok
      (Int.tdiv ((nd.capacityPods
        - ((ni.Pods.length : Int) + ((h.NominatedPodsForNode nd.Name).length : Int))) * 100)
        nd.capacityPods, none) := by
  rw [score_ok h ni nd hnode (by omega)]
  unfold quo64 mul64 sub64 add64 len64
  rw [wrap64_remaining, wrap64_of_isInt64 hfit, wrap64_of_isInt64 (tdiv_isInt64 hfit hcap)]


/-- C1 (as stated, refuted): a node of capacity 2^62 without pods satisfies the
premises of the claim, the formula on integers gives 100, and `score` returns 0
because the product by 100 wraps around in `int64`. -/
theorem C1_counterexample :
    (0 < (4611686018427387904 : Int) ∧ isInt64 4611686018427387904) ∧
    score (testHandle []) (makeNodeInfo "node1" 0 0 0 4611686018427387904)
      = Except.ok (0, none) ∧
    Int.tdiv ((4611686018427387904 - ((0 : Int) + 0)) * 100) 4611686018427387904 = 100 := by
  refine ⟨by decide, rfl, by decide⟩

/-- C1 (amended): for every node with a positive pod capacity, whenever the
scaled remainder `(totalCapacity - (running + nominated)) * 100` fits in
`int64`, `score` returns exactly that product divided by `totalCapacity`,
truncated toward zero, together with a nil status. -/
theorem C1_score_formula (h : Handle) (ni : NodeInfo) (nd : Node) (hnode : ni.node = some nd)
    (hcap : 0 < nd.capacityPods)
    (hfit : isInt64 ((nd.capacityPods
      - ((ni.Pods.length : Int) + ((h.NominatedPodsForNode nd.Name).length : Int))) * 100)) :
    score h ni = Except.ok
      (Int.tdiv ((nd.capacityPods
        - ((ni.Pods.length : Int) + ((h.NominatedPodsForNode nd.Name).length : Int))) * 100)
        nd.capacityPods, none) :=
  score_exact h ni nd hnode hcap hfit

/-- C1 (witness): 13 pods on a node of capacity 110 score 88. -/
theorem C1_score_formula_witness :
    score (testHandle []) (makeNodeInfo "node2" 3 0 10 110) = Except.ok (88, none) :=
  C1_score_formula (testHandle []) (makeNodeInfo "node2" 3 0 10 110) ⟨"node2", 110⟩ rfl
    (by decide) (by decide)

/-- C2 (code evaluated at the failing input): on a node whose pod capacity is 0,
`score` returns no status at all: the division panics. -/
theorem C2_zero_capacity_panics :
    score (testHandle []) (makeNodeInfo "node1" 0 0 5 0)
      = Except.error Panic.integerDivideByZero :=
  score_zero_capacity (testHandle []) (makeNodeInfo "node1" 0 0 5 0) ⟨"node1", 0⟩ rfl rfl

/-! ## The normalizer -/

/-- What the scan holds on a non-empty batch of `int64` scores whose spread,
scaled by 100, fits in `int64`. -/
theorem scan_bounds {scores : List NodeScore} (hne : scores ≠ [])
    (hint : ∀ s ∈ scores, isInt64 s.Score)
    (hfit : ∀ a ∈ scores, ∀ b ∈ scores, (a.Score - b.Score) * 100 ≤ maxInt64) :
    (∀ s ∈ scores, (scan scores).2 ≤ s.Score ∧ s.Score ≤ (scan scores).1) ∧
      (∃ s ∈ scores, s.Score = (scan scores).2) ∧
      ((scan scores).1 - (scan scores).2) * 100 ≤ maxInt64 := by
  obtain ⟨_, hub, hhi⟩ := foldl_scanStep_fst scores (-maxInt64, maxInt64)
  obtain ⟨_, hlb, hlo⟩ := foldl_scanStep_snd scores (-maxInt64, maxInt64)
  obtain ⟨x, hx⟩ := List.exists_mem_of_ne_nil scores hne
  have hxi := hint x hx
  have hxl := hlb x hx
  unfold isInt64 at hxi
  have hmem : ∃ s ∈ scores, s.Score = (scan scores).2 := by
    unfold scan
    rcases hlo with hlo | ⟨s, hs, hlo⟩
    · simp only at hlo
      exact ⟨x, hx, by omega⟩
    · exact ⟨s, hs, hlo.symm⟩
  refine ⟨fun s hs => ⟨hlb s hs, hub s hs⟩, hmem, ?_⟩
  obtain ⟨m, hm, hmlo⟩ := hmem
  have hmi := hint m hm
  unfold isInt64 at hmi
  unfold scan at hmlo ⊢
  rcases hhi with hhi | ⟨t, ht, hhi⟩
  · simp only at hhi
    rw [hhi, ← hmlo]
    unfold minInt64 at hmi
    unfold maxInt64
    omega
  · rw [hhi, ← hmlo]
    exact hfit t ht m hm

/-- Without overflow, on a batch whose maximum `hi` and minimum `lo` differ,
`NormalizeScore` is the linear map on mathematical integers. -/
theorem NormalizeScore_linear (scores : List NodeScore) (hi lo : Int)
    (hint : ∀ s ∈ scores, isInt64 s.Score)
    (hub : ∀ s ∈ scores, s.Score ≤ hi) (hhi : ∃ s ∈ scores, s.Score = hi)
    (hlb : ∀ s ∈ scores, lo ≤ s.Score) (hlo : ∃ s ∈ scores, s.Score = lo)
    (hne : hi ≠ lo) (hfit : (hi - lo) * 100 ≤ maxInt64) :
    NormalizeScore scores =
      (scores.map (fun ns => { ns with
        Score := Int.tdiv ((ns.Score - lo) * (MaxNodeScore - MinNodeScore)) (hi - lo)
                  + MinNodeScore }), none) := by
  obtain ⟨m, hm, hmlo⟩ := hlo
  have hmi := hint m hm
  have hmh := hub m hm
  unfold isInt64 minInt64 maxInt64 at hmi
  have hlt : lo < hi := by omega
  have h1 : (scan scores).1 = hi := scan_highest hub hhi (by unfold maxInt64; omega)
  have h2 : (scan scores).2 = lo := scan_lowest hlb ⟨m, hm, hmlo⟩ (by unfold maxInt64; omega)
  unfold NormalizeScore
  simp only [h1, h2]
  congr 1
  apply List.map_congr_left
  intro ns hns
  exact rescale_score ns (hlb ns hns) (hub ns hns) hlt hfit


theorem sub64_self (a : Int) : sub64 a a = 0 := by
  unfold sub64
  rw [sub_self]
  decide

/-- The second loop on one entry of a batch without overflow: the name is kept,
the score lands in the normalized range, and an entry at the minimum gets 0. -/
theorem rescale_scan {scores : List NodeScore} (hne : scores ≠ [])
    (hint : ∀ s ∈ scores, isInt64 s.Score)
    (hfit : ∀ a ∈ scores, ∀ b ∈ scores, (a.Score - b.Score) * 100 ≤ maxInt64)
    (ns : NodeScore) (hns : ns ∈ scores) :
    (rescale (scan scores).2 (sub64 (scan scores).1 (scan scores).2)
        (sub64 MaxNodeScore MinNodeScore) ns).Name = ns.Name ∧
      0 ≤ (rescale (scan scores).2 (sub64 (scan scores).1 (scan scores).2)
        (sub64 MaxNodeScore MinNodeScore) ns).Score ∧
      (rescale (scan scores).2 (sub64 (scan scores).1 (scan scores).2)
        (sub64 MaxNodeScore MinNodeScore) ns).Score ≤ 100 ∧
      (ns.Score = (scan scores).2 →
        (rescale (scan scores).2 (sub64 (scan scores).1 (scan scores).2)
          (sub64 MaxNodeScore MinNodeScore) ns).Score = 0) := by
  obtain ⟨hb, _, hw⟩ := scan_bounds hne hint hfit
  obtain ⟨hlo, hhi⟩ := hb ns hns
  rcases eq_or_lt_of_le (le_trans hlo hhi) with heq | hlt
  · rw [← heq, sub64_self]
    simp [rescale, MinNodeScore]
  · rw [rescale_score ns hlo hhi hlt hw]
    have hbd := tdiv_offset_bounds (d := ns.Score - (scan scores).2)
      (w := (scan scores).1 - (scan scores).2) (by omega) (by omega) (by omega)
    simp only [MaxNodeScore, MinNodeScore, sub_zero, add_zero]
    refine ⟨trivial, hbd.1, hbd.2, ?_⟩
    intro h0
    rw [h0, sub_self, zero_mul, Int.zero_tdiv]

/-- C3 (as stated, refuted): the batch [0, 92233720368547759] holds `int64`
scores, and after `NormalizeScore` its second entry is -99, below `MinNodeScore`. -/
theorem C3_counterexample :
    (isInt64 0 ∧ isInt64 92233720368547759) ∧
    (NormalizeScore [⟨"node1", 0⟩, ⟨"node2", 92233720368547759⟩]).1
      = [⟨"node1", 0⟩, ⟨"node2", -99⟩] ∧
    ¬ (MinNodeScore ≤ (-99 : Int)) := by
  refine ⟨by decide, by decide, by decide⟩

/-- C3 (amended): for every batch of `int64` raw scores whose spread scaled by
100 fits in `int64` (any two scores `a`, `b` have `(a - b) * 100 ≤ MaxInt64`),
after `NormalizeScore` every score lies in `[MinNodeScore, MaxNodeScore]`. -/
theorem C3_normalized_in_range (scores : List NodeScore)
    (hint : ∀ s ∈ scores, isInt64 s.Score)
    (hfit : ∀ a ∈ scores, ∀ b ∈ scores, (a.Score - b.Score) * 100 ≤ maxInt64) :
    ∀ s ∈ (NormalizeScore scores).1, MinNodeScore ≤ s.Score ∧ s.Score ≤ MaxNodeScore := by
  intro s hs
  unfold NormalizeScore at hs
  simp only [List.mem_map] at hs
  obtain ⟨ns, hns, rfl⟩ := hs
  have hne : scores ≠ [] := List.ne_nil_of_mem hns
  obtain ⟨_, h0, h100, _⟩ := rescale_scan hne hint hfit ns hns
  exact ⟨h0, h100⟩

/-- C3 (witness): the batch [-5, 88, 100] normalizes to [0, 88, 100], and its
middle entry lies in the range. -/
theorem C3_normalized_in_range_witness :
    (⟨"node2", 88⟩ : NodeScore) ∈
        (NormalizeScore [⟨"node1", -5⟩, ⟨"node2", 88⟩, ⟨"node3", 100⟩]).1 ∧
      MinNodeScore ≤ (⟨"node2", 88⟩ : NodeScore).Score ∧
      (⟨"node2", 88⟩ : NodeScore).Score ≤ MaxNodeScore :=
  ⟨by decide,
   C3_normalized_in_range [⟨"node1", -5⟩, ⟨"node2", 88⟩, ⟨"node3", 100⟩]
    (by decide) (by decide) ⟨"node2", 88⟩ (by decide)⟩

/-- C4 (as stated, refuted): in the batch [0, MaxInt64] the highest and lowest
raw scores differ, and the entry holding the highest one gets 0, not
`MaxNodeScore`: the product by 100 wraps around in `int64`. -/
theorem C4_counterexample :
    (isInt64 0 ∧ isInt64 9223372036854775807 ∧ (0 : Int) ≠ 9223372036854775807) ∧
    (NormalizeScore [⟨"node1", 0⟩, ⟨"node2", 9223372036854775807⟩]).1
      = [⟨"node1", 0⟩, ⟨"node2", 0⟩] ∧
    (0 : Int) ≠ MaxNodeScore := by
  refine ⟨by decide, by decide, by decide⟩

/-- C5: for every non-empty batch of `int64` scores that are all equal,
`NormalizeScore` sets every score to `MinNodeScore` and keeps every name; in
particular a single-node batch gets `MinNodeScore` whatever its raw score. -/
theorem C5_all_equal_to_min :
    (∀ (scores : List NodeScore) (v : Int), scores ≠ [] → isInt64 v →
      (∀ s ∈ scores, s.Score = v) →
      (NormalizeScore scores).1 = scores.map (fun ns => { ns with Score := MinNodeScore })) ∧
    (∀ (name : String) (v : Int), isInt64 v →
      (NormalizeScore [⟨name, v⟩]).1 = [⟨name, MinNodeScore⟩]) := by
  have main : ∀ (scores : List NodeScore) (v : Int), scores ≠ [] → isInt64 v →
      (∀ s ∈ scores, s.Score = v) →
      (NormalizeScore scores).1 = scores.map (fun ns => { ns with Score := MinNodeScore }) := by
    intro scores v hne hv hall
    have hint : ∀ s ∈ scores, isInt64 s.Score := fun s hs => by rw [hall s hs]; exact hv
    have hfit : ∀ a ∈ scores, ∀ b ∈ scores, (a.Score - b.Score) * 100 ≤ maxInt64 := by
      intro a ha b hb
      rw [hall a ha, hall b hb, sub_self, zero_mul]
      decide
    obtain ⟨_, ⟨m, hm, hmlo⟩, _⟩ := scan_bounds hne hint hfit
    unfold NormalizeScore
    apply List.map_congr_left
    intro ns hns
    obtain ⟨hname, _, _, hzero⟩ := rescale_scan hne hint hfit ns hns
    have hsc := hzero (by rw [← hmlo, hall ns hns, hall m hm])
    generalize rescale (scan scores).2 (sub64 (scan scores).1 (scan scores).2)
      (sub64 MaxNodeScore MinNodeScore) ns = r at hname hsc
    cases r
    cases ns
    simp only at hname hsc
    simp [hname, hsc, MinNodeScore]
  refine ⟨main, ?_⟩
  intro name v hv
  exact main [⟨name, v⟩] v (by simp) hv (by simp)

/-- C5 (witness): the single-node batch [42] and the tied batch [7, 7] get 0. -/
theorem C5_all_equal_to_min_witness :
    (NormalizeScore [⟨"node1", 7⟩, ⟨"node2", 7⟩]).1 = [⟨"node1", 0⟩, ⟨"node2", 0⟩] ∧
    (NormalizeScore [⟨"node1", 42⟩]).1 = [⟨"node1", 0⟩] :=
  ⟨C5_all_equal_to_min.1 [⟨"node1", 7⟩, ⟨"node2", 7⟩] 7 (by decide) (by decide) (by decide),
   C5_all_equal_to_min.2 "node1" 42 (by decide)⟩


/-- C6 (as stated, refuted): in the batch [0, 2^61, 2^62] the minimum is 0 and
the maximum 2^62; the linear map sends the middle entry to 50, and
`NormalizeScore` gives it -2. -/
theorem C6_counterexample :
    (isInt64 0 ∧ isInt64 2305843009213693952 ∧ isInt64 4611686018427387904) ∧
    (NormalizeScore [⟨"node1", 0⟩, ⟨"node2", 2305843009213693952⟩,
        ⟨"node3", 4611686018427387904⟩]).1
      = [⟨"node1", 0⟩, ⟨"node2", -2⟩, ⟨"node3", 0⟩] ∧
    Int.tdiv ((2305843009213693952 - 0) * (MaxNodeScore - MinNodeScore))
        (4611686018427387904 - 0) + MinNodeScore = 50 := by
  refine ⟨by decide, by decide, by decide⟩

/-- C6 (amended): for every batch of `int64` scores whose maximum `hi` and
minimum `lo` differ and satisfy `(hi - lo) * 100 ≤ MaxInt64`, `NormalizeScore`
rewrites each entry's score to `(value - lo) * (MAX - MIN) / (hi - lo) + MIN`
with the division truncated toward zero, and returns a nil status. -/
theorem C6_linear_map (scores : List NodeScore) (hi lo : Int)
    (hint : ∀ s ∈ scores, isInt64 s.Score)
    (hub : ∀ s ∈ scores, s.Score ≤ hi) (hhi : ∃ s ∈ scores, s.Score = hi)
    (hlb : ∀ s ∈ scores, lo ≤ s.Score) (hlo : ∃ s ∈ scores, s.Score = lo)
    (hne : hi ≠ lo) (hfit : (hi - lo) * 100 ≤ maxInt64) :
    NormalizeScore scores =
      (scores.map (fun ns => { ns with
        Score := Int.tdiv ((ns.Score - lo) * (MaxNodeScore - MinNodeScore)) (hi - lo)
                  + MinNodeScore }), none) :=
  NormalizeScore_linear scores hi lo hint hub hhi hlb hlo hne hfit

/-- C6 (witness): the batch [-20, 5, 30] is rewritten by the linear map to [0, 50, 100]. -/
theorem C6_linear_map_witness :
    NormalizeScore [⟨"node1", -20⟩, ⟨"node2", 5⟩, ⟨"node3", 30⟩] =
      ([(⟨"node1", -20⟩ : NodeScore), ⟨"node2", 5⟩, ⟨"node3", 30⟩].map (fun ns => { ns with
        Score := Int.tdiv ((ns.Score - (-20)) * (MaxNodeScore - MinNodeScore)) (30 - (-20))
                  + MinNodeScore }), none) :=
  C6_linear_map [⟨"node1", -20⟩, ⟨"node2", 5⟩, ⟨"node3", 30⟩] 30 (-20)
    (by decide) (by decide) (by decide) (by decide) (by decide) (by decide) (by decide)

/-- C7: for every batch `NormalizeScore` keeps the length of the batch and the
node name at every position; only the `Score` fields change. -/
theorem C7_names_preserved (scores : List NodeScore) :
    (NormalizeScore scores).1.length = scores.length ∧
    (NormalizeScore scores).1.map NodeScore.Name = scores.map NodeScore.Name := by
  unfold NormalizeScore
  refine ⟨by simp, ?_⟩
  rw [List.map_map]
  apply List.map_congr_left
  intro ns _
  simp only [Function.comp_apply, rescale]
  split <;> rfl

set_option maxRecDepth 100000 in
/-- C8: every batch whose scores lie between 0 and 100, with an entry at 0 and
an entry at 100, is left unchanged by `NormalizeScore`; and the nodes of the
test (110, 13 and 0 pods of 110) score 0, 88 and 100, which normalize to
0, 88 and 100. -/
theorem C8_full_spread_fixed :
    (∀ scores : List NodeScore,
      (∀ s ∈ scores, 0 ≤ s.Score ∧ s.Score ≤ 100) →
      (∃ s ∈ scores, s.Score = 0) → (∃ s ∈ scores, s.Score = 100) →
      NormalizeScore scores = (scores, none)) ∧
    (Score (testHandle [makeNodeInfo "node1" 0 0 110 110, makeNodeInfo "node2" 3 0 10 110,
        makeNodeInfo "node3" 0 0 0 110]) "node1" = Except.ok (0, none) ∧
     Score (testHandle [makeNodeInfo "node1" 0 0 110 110, makeNodeInfo "node2" 3 0 10 110,
        makeNodeInfo "node3" 0 0 0 110]) "node2" = Except.ok (88, none) ∧
     Score (testHandle [makeNodeInfo "node1" 0 0 110 110, makeNodeInfo "node2" 3 0 10 110,
        makeNodeInfo "node3" 0 0 0 110]) "node3" = Except.ok (100, none) ∧
     NormalizeScore [⟨"node1", 0⟩, ⟨"node2", 88⟩, ⟨"node3", 100⟩]
       = ([⟨"node1", 0⟩, ⟨"node2", 88⟩, ⟨"node3", 100⟩], none)) := by
  refine ⟨?_, rfl, rfl, rfl, by decide⟩
  intro scores hb h0 h100
  have hint : ∀ s ∈ scores, isInt64 s.Score := by
    intro s hs
    have := hb s hs
    unfold isInt64 minInt64 maxInt64
    omega
  rw [NormalizeScore_linear scores 100 0 hint (fun s hs => (hb s hs).2) h100
    (fun s hs => (hb s hs).1) h0 (by decide) (by decide)]
  congr 1
  conv_rhs => rw [← List.map_id scores]
  apply List.map_congr_left
  intro ns _
  simp only [MaxNodeScore, MinNodeScore, sub_zero, add_zero, id]
  rw [Int.mul_tdiv_cancel ns.Score (by decide)]

/-- C8 (witness): the batch [0, 88, 100] is a fixed point of `NormalizeScore`. -/
theorem C8_full_spread_fixed_witness :
    NormalizeScore [⟨"node1", 0⟩, ⟨"node2", 88⟩, ⟨"node3", 100⟩]
      = ([⟨"node1", 0⟩, ⟨"node2", 88⟩, ⟨"node3", 100⟩], none) :=
  C8_full_spread_fixed.1 [⟨"node1", 0⟩, ⟨"node2", 88⟩, ⟨"node3", 100⟩]
    (by decide) (by decide) (by decide)

/-! ## More on the capacity scorer -/

set_option maxRecDepth 100000 in
/-- C9 (as stated, refuted): 111 pods on a node of capacity 110 exceed the
capacity, yet the raw score is 0, which is not negative: -100 / 110 truncates to 0. -/
theorem C9_counterexample :
    (0 < (110 : Int) ∧ (110 : Int) < 111 + 0) ∧
    score (testHandle []) (makeNodeInfo "node1" 0 0 111 110) = Except.ok (0, none) ∧
    ¬ ((0 : Int) < 0) := by
  refine ⟨by decide, rfl, by decide⟩

/-- C9 (amended): for every node with a positive pod capacity whose occupancy
exceeds the capacity, provided the scaled remainder fits in `int64`, the raw
score is at most 0, and it is strictly negative exactly when the excess times
100 reaches the capacity. -/
theorem C9_overcommitted_nonpositive (h : Handle) (ni : NodeInfo) (nd : Node)
    (hnode : ni.node = some nd) (hcap : 0 < nd.capacityPods)
    (hover : nd.capacityPods
      < (ni.Pods.length : Int) + ((h.NominatedPodsForNode nd.Name).length : Int))
    (hfit : isInt64 ((nd.capacityPods
      - ((ni.Pods.length : Int) + ((h.NominatedPodsForNode nd.Name).length : Int))) * 100)) :
    ∃ s : Int, score h ni = Except.ok (s, none) ∧ s ≤ 0 ∧
      (s < 0 ↔ nd.capacityPods ≤
        ((ni.Pods.length : Int) + ((h.NominatedPodsForNode nd.Name).length : Int)
          - nd.capacityPods) * 100) := by
  refine ⟨_, score_exact h ni nd hnode hcap hfit, ?_⟩
  generalize (ni.Pods.length : Int) + ((h.NominatedPodsForNode nd.Name).length : Int) = occ at *
  generalize nd.capacityPods = cap at *
  rw [tdiv_neg_num _ cap (by omega) hcap]
  have hnn : 0 ≤ (-((cap - occ) * 100)) / cap := Int.ediv_nonneg (by omega) (by omega)
  refine ⟨by omega, ?_, ?_⟩
  · intro hs
    by_contra hlt
    have : (-((cap - occ) * 100)) / cap = 0 := Int.ediv_eq_zero_of_lt (by omega) (by omega)
    omega
  · intro hle
    have : 1 ≤ (-((cap - occ) * 100)) / cap := Int.le_ediv_of_mul_le hcap (by omega)
    omega

/-- C9 (witness): 120 pods on a node of capacity 110 have a raw score of -9. -/
theorem C9_overcommitted_nonpositive_witness :
    ∃ s : Int, score (testHandle []) (makeNodeInfo "node1" 0 0 120 110) = Except.ok (s, none) ∧
      s ≤ 0 ∧ (s < 0 ↔ (110 : Int) ≤
        ((((makeNodeInfo "node1" 0 0 120 110).Pods.length : Int)
          + ((((testHandle []).NominatedPodsForNode "node1").length : Nat) : Int)) - 110) * 100) :=
  C9_overcommitted_nonpositive (testHandle []) (makeNodeInfo "node1" 0 0 120 110) ⟨"node1", 110⟩
    rfl (by decide) (by decide) (by decide)

set_option maxRecDepth 100000 in
/-- C10 (code evaluated at the failing input): a node of capacity 1000 with 990
pods has 10 remaining slots and scores 1, a node of capacity 10 with 1 pod has
9 remaining slots and scores 90: more remaining slots, lower score. -/
theorem C10_more_slots_lower_score :
    ((1000 : Int) - 990 - 0 > 10 - 1 - 0) ∧
    score (testHandle []) (makeNodeInfo "node1" 0 0 990 1000) = Except.ok (1, none) ∧
    score (testHandle []) (makeNodeInfo "node2" 0 0 1 10) = Except.ok (90, none) ∧
    (1 : Int) < 90 := by
  refine ⟨by decide, rfl, rfl, by decide⟩

/-! ## Shared lemmas on the normalizer and on truncated division -/

/-- A non-empty batch has a maximum and a minimum score, both attained. -/
theorem exists_max_min {scores : List NodeScore} (hne : scores ≠ []) :
    ∃ hi lo : Int, (∀ s ∈ scores, s.Score ≤ hi) ∧ (∃ s ∈ scores, s.Score = hi) ∧
      (∀ s ∈ scores, lo ≤ s.Score) ∧ (∃ s ∈ scores, s.Score = lo) := by
  obtain ⟨x, hx⟩ := List.exists_mem_of_ne_nil scores hne
  obtain ⟨_, hub, hhi⟩ := foldl_scanStep_fst scores (x.Score, x.Score)
  obtain ⟨_, hlb, hlo⟩ := foldl_scanStep_snd scores (x.Score, x.Score)
  refine ⟨(scores.foldl scanStep (x.Score, x.Score)).1,
    (scores.foldl scanStep (x.Score, x.Score)).2, hub, ?_, hlb, ?_⟩
  · rcases hhi with h | ⟨s, hs, h⟩
    · exact ⟨x, hx, h.symm⟩
    · exact ⟨s, hs, h.symm⟩
  · rcases hlo with h | ⟨s, hs, h⟩
    · exact ⟨x, hx, h.symm⟩
    · exact ⟨s, hs, h.symm⟩

/-- A batch of equal `int64` scores is rewritten to `MinNodeScore` throughout. -/
theorem NormalizeScore_tied (scores : List NodeScore) (v : Int) (hv : isInt64 v)
    (hall : ∀ s ∈ scores, s.Score = v) :
    NormalizeScore scores = (scores.map (fun ns => { ns with Score := MinNodeScore }), none) := by
  by_cases hne : scores = []
  · subst hne
    rfl
  have hint : ∀ s ∈ scores, isInt64 s.Score := fun s hs => by rw [hall s hs]; exact hv
  have hfit : ∀ a ∈ scores, ∀ b ∈ scores, (a.Score - b.Score) * 100 ≤ maxInt64 := by
    intro a ha b hb
    rw [hall a ha, hall b hb, sub_self, zero_mul]
    decide
  obtain ⟨_, ⟨m, hm, hmlo⟩, _⟩ := scan_bounds hne hint hfit
  unfold NormalizeScore
  dsimp only
  congr 1
  apply List.map_congr_left
  intro ns hns
  obtain ⟨hname, _, _, hzero⟩ := rescale_scan hne hint hfit ns hns
  have hsc := hzero (by rw [← hmlo, hall ns hns, hall m hm])
  generalize rescale (scan scores).2 (sub64 (scan scores).1 (scan scores).2)
    (sub64 MaxNodeScore MinNodeScore) ns = r at hname hsc
  cases r
  cases ns
  simp only at hname hsc
  simp [hname, hsc, MinNodeScore]

/-- A batch with scores between 0 and 100 that attains both ends is a fixed point. -/
theorem NormalizeScore_spread_fixed (scores : List NodeScore)
    (hb : ∀ s ∈ scores, 0 ≤ s.Score ∧ s.Score ≤ 100)
    (h0 : ∃ s ∈ scores, s.Score = 0) (h100 : ∃ s ∈ scores, s.Score = 100) :
    NormalizeScore scores = (scores, none) := by
  have hint : ∀ s ∈ scores, isInt64 s.Score := by
    intro s hs
    have := hb s hs
    unfold isInt64 minInt64 maxInt64
    omega
  rw [NormalizeScore_linear scores 100 0 hint (fun s hs => (hb s hs).2) h100
    (fun s hs => (hb s hs).1) h0 (by decide) (by decide)]
  congr 1
  conv_rhs => rw [← List.map_id scores]
  apply List.map_congr_left
  intro ns _
  simp only [MaxNodeScore, MinNodeScore, sub_zero, add_zero, id]
  rw [Int.mul_tdiv_cancel ns.Score (by decide)]

/-- Truncated division by a positive divisor is monotone in the dividend. -/
theorem tdiv_mono {x y c : Int} (hxy : x ≤ y) (hc : 0 < c) : Int.tdiv x c ≤ Int.tdiv y c := by
  rcases le_total 0 x with hx | hx
  · rw [Int.tdiv_eq_ediv hx (by omega), Int.tdiv_eq_ediv (by omega) (by omega)]
    exact Int.ediv_le_ediv hc hxy
  · rw [tdiv_neg_num x c hx hc]
    have h1 : 0 ≤ (-x) / c := Int.ediv_nonneg (by omega) (by omega)
    rcases le_total 0 y with hy | hy
    · rw [Int.tdiv_eq_ediv hy (by omega)]
      have h2 : 0 ≤ y / c := Int.ediv_nonneg hy (by omega)
      omega
    · rw [tdiv_neg_num y c hy hc]
      have h2 : (-y) / c ≤ (-x) / c := Int.ediv_le_ediv hc (by omega)
      omega

/-! ## Status of the normalizer, lookup, and bounds of the raw score -/

/-- C11 (as stated, refuted): on the empty batch `NormalizeScore` returns a nil
status, which reports success, and the empty batch. -/
theorem C11_counterexample :
    NormalizeScore [] = ([], none) ∧ IsSuccess (NormalizeScore []).2 = true := by
  exact ⟨rfl, rfl⟩

/-- C11 (amended): `NormalizeScore` has no failure path: on every batch, the
empty one included, it returns a nil status, which reports success, and an
empty batch stays empty. -/
theorem C11_always_success (scores : List NodeScore) :
    (NormalizeScore scores).2 = none ∧ IsSuccess (NormalizeScore scores).2 = true ∧
      (NormalizeScore []).1 = [] := by
  exact ⟨rfl, rfl, rfl⟩

/-- C12: when the snapshot lookup of the node fails with message `e`, `Score`
returns score 0 with an `Error` status whose message is exactly `e`; when the
lookup succeeds with `nodeInfo`, `Score` returns exactly `score nodeInfo`. -/
theorem C12_Score_lookup (h : Handle) (nodeName : String) :
    (∀ e : String, h.getNodeInfo nodeName = Except.error e →
      Score h nodeName = Except.ok (0, some ⟨Code.Error, e⟩)) ∧
    (∀ nodeInfo : NodeInfo, h.getNodeInfo nodeName = Except.ok nodeInfo →
      Score h nodeName = score h nodeInfo) := by
  constructor
  · intro e he
    unfold Score
    rw [he]
    rfl
  · intro nodeInfo hok
    unfold Score
    rw [hok]

/-- C12 (witness): in the snapshot holding only node2, looking node4 up fails
and `Score` carries the lookup message; looking node2 up gives its `score`. -/
theorem C12_Score_lookup_witness :
    Score (testHandle [makeNodeInfo "node2" 3 0 10 110]) "node4"
      = Except.ok (0, some ⟨Code.Error, "unable to find node: node4"⟩) ∧
    Score (testHandle [makeNodeInfo "node2" 3 0 10 110]) "node2"
      = score (testHandle [makeNodeInfo "node2" 3 0 10 110]) (makeNodeInfo "node2" 3 0 10 110) :=
  ⟨(C12_Score_lookup (testHandle [makeNodeInfo "node2" 3 0 10 110]) "node4").1
      "unable to find node: node4" rfl,
   (C12_Score_lookup (testHandle [makeNodeInfo "node2" 3 0 10 110]) "node2").2
      (makeNodeInfo "node2" 3 0 10 110) rfl⟩

/-- C13 (as stated, refuted): an empty node of capacity 3 * 2^61 has occupancy 0
within its capacity, and its raw score is -1: neither in [0, 100] nor 100. -/
theorem C13_counterexample :
    (0 < (6917529027641081856 : Int) ∧ isInt64 6917529027641081856 ∧
      (0 : Int) + 0 ≤ 6917529027641081856) ∧
    score (testHandle []) (makeNodeInfo "node1" 0 0 0 6917529027641081856)
      = Except.ok (-1, none) ∧
    ¬ ((0 : Int) ≤ -1) ∧ (-1 : Int) ≠ 100 := by
  refine ⟨by decide, rfl, by decide, by decide⟩

/-! ## Occupancy and the raw score -/

/-- C16: the running pod count is the length of the pod list, whatever the
state of each pod: two nodes with the same capacity, the same number of
nominated pods and pod lists of equal length get the same result from `score`. -/
theorem C16_length_only (h₁ h₂ : Handle) (ni₁ ni₂ : NodeInfo) (nd₁ nd₂ : Node)
    (hnode₁ : ni₁.node = some nd₁) (hnode₂ : ni₂.node = some nd₂)
    (hcap : nd₁.capacityPods = nd₂.capacityPods)
    (hnom : (h₁.NominatedPodsForNode nd₁.Name).length = (h₂.NominatedPodsForNode nd₂.Name).length)
    (hlen : ni₁.Pods.length = ni₂.Pods.length) :
    score h₁ ni₁ = score h₂ ni₂ := by
  unfold score
  rw [hnode₁, hnode₂]
  simp only [len64, hcap, hnom, hlen]

/-- C16 (witness): 3 terminating and 10 regular pods on a node of capacity 110
score 88, exactly as 13 regular pods do. -/
theorem C16_length_only_witness :
    score (testHandle []) (makeNodeInfo "node2" 3 0 10 110)
        = score (testHandle []) (makeNodeInfo "node2" 0 0 13 110) ∧
      score (testHandle []) (makeNodeInfo "node2" 3 0 10 110) = Except.ok (88, none) :=
  ⟨C16_length_only (testHandle []) (testHandle []) (makeNodeInfo "node2" 3 0 10 110)
      (makeNodeInfo "node2" 0 0 13 110) ⟨"node2", 110⟩ ⟨"node2", 110⟩ rfl rfl rfl rfl
      (by decide),
   rfl⟩

/-- C19 (as stated, refuted): at capacity 92233720368547759 the occupancies 0 and
1 satisfy 0 ≤ 1, and the raw scores are -99 and 99: the lower occupancy scores
lower, because the product by 100 wraps around in `int64` for the empty node. -/
theorem C19_counterexample :
    (0 < (92233720368547759 : Int) ∧ isInt64 92233720368547759 ∧ (0 : Int) ≤ 1) ∧
    score (testHandle []) (makeNodeInfo "node1" 0 0 0 92233720368547759)
      = Except.ok (-99, none) ∧
    score (testHandle []) (makeNodeInfo "node1" 0 0 1 92233720368547759)
      = Except.ok (99, none) ∧
    ¬ ((-99 : Int) ≥ 99) := by
  refine ⟨by decide, rfl, rfl, by decide⟩

/-- C19 (amended): for a fixed positive capacity and two snapshots with
occupancies `a ≤ b` (b possibly above the capacity) whose scaled remainders
`(totalCapacity - a) * 100` and `(totalCapacity - b) * 100` fit in `int64`,
the raw score at occupancy `a` is greater than or equal to the one at `b`. -/
theorem C19_score_antitone (h₁ h₂ : Handle) (ni₁ ni₂ : NodeInfo) (nd₁ nd₂ : Node)
    (hnode₁ : ni₁.node = some nd₁) (hnode₂ : ni₂.node = some nd₂)
    (hcap : 0 < nd₁.capacityPods) (hsame : nd₂.capacityPods = nd₁.capacityPods)
    (hocc : (ni₁.Pods.length : Int) + ((h₁.NominatedPodsForNode nd₁.Name).length : Int)
      ≤ (ni₂.Pods.length : Int) + ((h₂.NominatedPodsForNode nd₂.Name).length : Int))
    (hfit₁ : isInt64 ((nd₁.capacityPods
      - ((ni₁.Pods.length : Int) + ((h₁.NominatedPodsForNode nd₁.Name).length : Int))) * 100))
    (hfit₂ : isInt64 ((nd₂.capacityPods
      - ((ni₂.Pods.length : Int) + ((h₂.NominatedPodsForNode nd₂.Name).length : Int))) * 100)) :
    ∃ s₁ s₂ : Int, score h₁ ni₁ = Except.ok (s₁, none) ∧ score h₂ ni₂ = Except.ok (s₂, none) ∧
      s₁ ≥ s₂ := by
  refine ⟨_, _, score_exact h₁ ni₁ nd₁ hnode₁ hcap hfit₁,
    score_exact h₂ ni₂ nd₂ hnode₂ (by omega) hfit₂, ?_⟩
  rw [hsame]
  exact tdiv_mono (by omega) hcap

/-- C19 (witness): on a node of capacity 110, 13 pods score at least as high as 120 pods. -/
theorem C19_score_antitone_witness :
    ∃ s₁ s₂ : Int,
      score (testHandle []) (makeNodeInfo "node2" 3 0 10 110) = Except.ok (s₁, none) ∧
      score (testHandle []) (makeNodeInfo "node2" 0 0 120 110) = Except.ok (s₂, none) ∧
      s₁ ≥ s₂ :=
  C19_score_antitone (testHandle []) (testHandle []) (makeNodeInfo "node2" 3 0 10 110)
    (makeNodeInfo "node2" 0 0 120 110) ⟨"node2", 110⟩ ⟨"node2", 110⟩ rfl rfl
    (by decide) rfl (by decide) (by decide) (by decide)

/-! ## Relational properties of the normalizer -/

/-- The scan of a batch of `int64` scores whose maximum and minimum differ. -/
theorem scan_eq_of_ne {scores : List NodeScore} {hi lo : Int}
    (hint : ∀ s ∈ scores, isInt64 s.Score)
    (hub : ∀ s ∈ scores, s.Score ≤ hi) (hhi : ∃ s ∈ scores, s.Score = hi)
    (hlb : ∀ s ∈ scores, lo ≤ s.Score) (hlo : ∃ s ∈ scores, s.Score = lo)
    (hmin : minInt64 < hi) : scan scores = (hi, lo) := by
  obtain ⟨m, hm, hmlo⟩ := hlo
  have hmi := hint m hm
  unfold isInt64 minInt64 maxInt64 at hmi
  unfold minInt64 at hmin
  have h1 : (scan scores).1 = hi := scan_highest hub hhi (by unfold maxInt64; omega)
  have h2 : (scan scores).2 = lo := scan_lowest hlb ⟨m, hm, hmlo⟩ (by unfold maxInt64; omega)
  exact Prod.ext h1 h2

/-- The second loop is monotone on the entries of a batch without overflow. -/
theorem rescale_mono {scores : List NodeScore} (hne : scores ≠ [])
    (hint : ∀ s ∈ scores, isInt64 s.Score)
    (hfit : ∀ a ∈ scores, ∀ b ∈ scores, (a.Score - b.Score) * 100 ≤ maxInt64)
    (a b : NodeScore) (ha : a ∈ scores) (hb : b ∈ scores) (hab : a.Score ≤ b.Score) :
    (rescale (scan scores).2 (sub64 (scan scores).1 (scan scores).2)
        (sub64 MaxNodeScore MinNodeScore) a).Score ≤
      (rescale (scan scores).2 (sub64 (scan scores).1 (scan scores).2)
        (sub64 MaxNodeScore MinNodeScore) b).Score := by
  obtain ⟨hbd, _, hw⟩ := scan_bounds hne hint hfit
  obtain ⟨halo, hahi⟩ := hbd a ha
  obtain ⟨hblo, hbhi⟩ := hbd b hb
  rcases eq_or_lt_of_le (le_trans halo hahi) with heq | hlt
  · rw [← heq, sub64_self]
    simp [rescale]
  · rw [rescale_score a halo hahi hlt hw, rescale_score b hblo hbhi hlt hw]
    simp only [MaxNodeScore, MinNodeScore, sub_zero, add_zero]
    exact tdiv_mono (by omega) (by omega)

/-- C15 (code evaluated at the failing input): on the non-empty batch [MinInt64]
the scan leaves `highest` at its initial value -MaxInt64, which is not the
maximum MinInt64 of the batch: the first element does not update `highest`,
and -MaxInt64 is not the lower bound of `int64`; `lowest` is MinInt64. -/
theorem C15_highest_misses_MinInt64 :
    isInt64 (-9223372036854775808) ∧
    scan [⟨"node1", -9223372036854775808⟩] = (-9223372036854775807, -9223372036854775808) ∧
    (-9223372036854775807 : Int) ≠ -9223372036854775808 ∧
    -maxInt64 ≠ minInt64 := by
  refine ⟨by decide, by decide, by decide, by decide⟩

/-- C17: on every batch of `int64` scores whose spread scaled by 100 fits in
`int64`, `NormalizeScore` preserves the ranking: when the raw score at
position `i` is at most the raw score at position `j`, so are the normalized
scores at these positions. -/
theorem C17_ranking_preserved (scores : List NodeScore)
    (hint : ∀ s ∈ scores, isInt64 s.Score)
    (hfit : ∀ a ∈ scores, ∀ b ∈ scores, (a.Score - b.Score) * 100 ≤ maxInt64)
    (i j : Nat) (rawI rawJ normI normJ : NodeScore)
    (hi : scores[i]? = some rawI) (hj : scores[j]? = some rawJ)
    (hni : (NormalizeScore scores).1[i]? = some normI)
    (hnj : (NormalizeScore scores).1[j]? = some normJ)
    (hle : rawI.Score ≤ rawJ.Score) : normI.Score ≤ normJ.Score := by
  have hmi := List.getElem?_mem hi
  have hmj := List.getElem?_mem hj
  have hne : scores ≠ [] := List.ne_nil_of_mem hmi
  unfold NormalizeScore at hni hnj
  simp only [List.getElem?_map, hi, hj, Option.map_some', Option.some.injEq] at hni hnj
  rw [← hni, ← hnj]
  exact rescale_mono hne hint hfit rawI rawJ hmi hmj hle

/-- C17 (witness): [30, 5, -20] normalizes to [100, 50, 0]; position 1 ranks
below position 0 before (5 ≤ 30) and after (50 ≤ 100). -/
theorem C17_ranking_preserved_witness :
    (NormalizeScore [⟨"node1", 30⟩, ⟨"node2", 5⟩, ⟨"node3", -20⟩]).1
        = [⟨"node1", 100⟩, ⟨"node2", 50⟩, ⟨"node3", 0⟩] ∧
      (⟨"node2", 50⟩ : NodeScore).Score ≤ (⟨"node1", 100⟩ : NodeScore).Score :=
  ⟨by decide,
   C17_ranking_preserved [⟨"node1", 30⟩, ⟨"node2", 5⟩, ⟨"node3", -20⟩]
    (by decide) (by decide) 1 0 ⟨"node2", 5⟩ ⟨"node1", 30⟩ ⟨"node2", 50⟩ ⟨"node1", 100⟩
    (by decide) (by decide) (by decide) (by decide) (by decide)⟩

/-- C14: normalization depends only on the spread of the raw scores: for every
batch and every constant `c` such that the scores and the shifted scores are
all `int64` values (adding `c` does not overflow), the batch with `c` added to
every raw score normalizes to the same result as the original batch. -/
theorem C14_shift_invariant (scores : List NodeScore) (c : Int)
    (hint : ∀ s ∈ scores, isInt64 s.Score ∧ isInt64 (s.Score + c)) :
    NormalizeScore (scores.map (fun ns => { ns with Score := ns.Score + c }))
      = NormalizeScore scores := by
  by_cases hne : scores = []
  · subst hne
    rfl
  obtain ⟨hi, lo, hub, hhi, hlb, hlo⟩ := exists_max_min hne
  have hint₁ : ∀ s ∈ scores, isInt64 s.Score := fun s hs => (hint s hs).1
  have hint₂ : ∀ s ∈ scores.map (fun ns : NodeScore => { ns with Score := ns.Score + c }),
      isInt64 s.Score := by
    intro s hs
    obtain ⟨t, ht, rfl⟩ := List.mem_map.1 hs
    exact (hint t ht).2
  have hub₂ : ∀ s ∈ scores.map (fun ns : NodeScore => { ns with Score := ns.Score + c }),
      s.Score ≤ hi + c := by
    intro s hs
    obtain ⟨t, ht, rfl⟩ := List.mem_map.1 hs
    have := hub t ht
    simp only
    omega
  have hlb₂ : ∀ s ∈ scores.map (fun ns : NodeScore => { ns with Score := ns.Score + c }),
      lo + c ≤ s.Score := by
    intro s hs
    obtain ⟨t, ht, rfl⟩ := List.mem_map.1 hs
    have := hlb t ht
    simp only
    omega
  have hhi₂ : ∃ s ∈ scores.map (fun ns : NodeScore => { ns with Score := ns.Score + c }),
      s.Score = hi + c := by
    obtain ⟨t, ht, hte⟩ := hhi
    exact ⟨_, List.mem_map.2 ⟨t, ht, rfl⟩, by simp only [hte]⟩
  have hlo₂ : ∃ s ∈ scores.map (fun ns : NodeScore => { ns with Score := ns.Score + c }),
      s.Score = lo + c := by
    obtain ⟨t, ht, hte⟩ := hlo
    exact ⟨_, List.mem_map.2 ⟨t, ht, rfl⟩, by simp only [hte]⟩
  obtain ⟨m, hm, hmlo⟩ := hlo
  obtain ⟨M, hM, hMhi⟩ := hhi
  have hlohi : lo ≤ hi := by rw [← hmlo]; exact hub m hm
  have hmi := hint m hm
  have hMi := hint M hM
  rw [hmlo] at hmi
  rw [hMhi] at hMi
  rcases eq_or_lt_of_le hlohi with heq | hlt
  · have hall : ∀ s ∈ scores, s.Score = hi := by
      intro s hs
      have h1 := hub s hs
      have h2 := hlb s hs
      omega
    have hall₂ : ∀ s ∈ scores.map (fun ns : NodeScore => { ns with Score := ns.Score + c }),
        s.Score = hi + c := by
      intro s hs
      have h1 := hub₂ s hs
      have h2 := hlb₂ s hs
      omega
    rw [NormalizeScore_tied scores hi hMi.1 hall, NormalizeScore_tied _ (hi + c) hMi.2 hall₂,
      List.map_map]
    rfl
  · have hmin : minInt64 < hi := by
      have := hmi.1.1
      omega
    have hmin₂ : minInt64 < hi + c := by
      have := hmi.2.1
      omega
    have hs₁ := scan_eq_of_ne hint₁ hub ⟨M, hM, hMhi⟩ hlb ⟨m, hm, hmlo⟩ hmin
    have hs₂ := scan_eq_of_ne hint₂ hub₂ hhi₂ hlb₂ hlo₂ hmin₂
    unfold NormalizeScore
    dsimp only
    rw [hs₁, hs₂, List.map_map]
    congr 1
    apply List.map_congr_left
    intro ns _
    have hr : sub64 (hi + c) (lo + c) = sub64 hi lo := by
      unfold sub64
      congr 1
      ring
    have hv : sub64 (ns.Score + c) (lo + c) = sub64 ns.Score lo := by
      unfold sub64
      congr 1
      ring
    simp only [Function.comp_apply, rescale, hr, hv]

/-- C14 (witness): [-103, -15, -3] is [0, 88, 100] shifted by -103 and
normalizes to the same result. -/
theorem C14_shift_invariant_witness :
    NormalizeScore ([(⟨"node1", 0⟩ : NodeScore), ⟨"node2", 88⟩, ⟨"node3", 100⟩].map
        (fun ns => { ns with Score := ns.Score + (-103) }))
      = NormalizeScore [⟨"node1", 0⟩, ⟨"node2", 88⟩, ⟨"node3", 100⟩] :=
  C14_shift_invariant [⟨"node1", 0⟩, ⟨"node2", 88⟩, ⟨"node3", 100⟩] (-103) (by decide)

/-- C18: on every batch of `int64` scores whose spread scaled by 100 fits in
`int64`, applying `NormalizeScore` twice gives the same result as applying it once. -/
theorem C18_idempotent (scores : List NodeScore)
    (hint : ∀ s ∈ scores, isInt64 s.Score)
    (hfit : ∀ a ∈ scores, ∀ b ∈ scores, (a.Score - b.Score) * 100 ≤ maxInt64) :
    NormalizeScore (NormalizeScore scores).1 = NormalizeScore scores := by
  by_cases hne : scores = []
  · subst hne
    rfl
  obtain ⟨hi, lo, hub, ⟨M, hM, hMhi⟩, hlb, ⟨m, hm, hmlo⟩⟩ := exists_max_min hne
  have hlohi : lo ≤ hi := by rw [← hmlo]; exact hub m hm
  have hw : (hi - lo) * 100 ≤ maxInt64 := by
    rw [← hMhi, ← hmlo]
    exact hfit M hM m hm
  rcases eq_or_lt_of_le hlohi with heq | hlt
  · have hall : ∀ s ∈ scores, s.Score = hi := by
      intro s hs
      have h1 := hub s hs
      have h2 := hlb s hs
      omega
    have hMi := hint M hM
    rw [hMhi] at hMi
    rw [NormalizeScore_tied scores hi hMi hall]
    have hall₂ : ∀ s ∈ scores.map (fun ns : NodeScore => { ns with Score := MinNodeScore }),
        s.Score = MinNodeScore := by
      intro s hs
      obtain ⟨t, _, rfl⟩ := List.mem_map.1 hs
      rfl
    rw [NormalizeScore_tied _ MinNodeScore (by decide) hall₂, List.map_map]
    rfl
  · rw [NormalizeScore_linear scores hi lo hint hub ⟨M, hM, hMhi⟩ hlb ⟨m, hm, hmlo⟩
      (by omega) hw]
    apply NormalizeScore_spread_fixed
    · intro s hs
      obtain ⟨t, ht, rfl⟩ := List.mem_map.1 hs
      have h1 := hub t ht
      have h2 := hlb t ht
      have hbd := tdiv_offset_bounds (d := t.Score - lo) (w := hi - lo)
        (by omega) (by omega) (by omega)
      simp only [MaxNodeScore, MinNodeScore, sub_zero, add_zero]
      exact hbd
    · refine ⟨_, List.mem_map.2 ⟨m, hm, rfl⟩, ?_⟩
      simp only [hmlo, sub_self, zero_mul, Int.zero_tdiv, MinNodeScore, add_zero]
    · refine ⟨_, List.mem_map.2 ⟨M, hM, rfl⟩, ?_⟩
      simp only [hMhi, MaxNodeScore, MinNodeScore, sub_zero, add_zero]
      exact Int.mul_tdiv_cancel_left 100 (by omega)

/-- C18 (witness): [30, 5, -20] normalizes to [100, 50, 0], and normalizing
again changes nothing. -/
theorem C18_idempotent_witness :
    NormalizeScore (NormalizeScore [⟨"node1", 30⟩, ⟨"node2", 5⟩, ⟨"node3", -20⟩]).1
      = NormalizeScore [⟨"node1", 30⟩, ⟨"node2", 5⟩, ⟨"node3", -20⟩] :=
  C18_idempotent [⟨"node1", 30⟩, ⟨"node2", 5⟩, ⟨"node3", -20⟩] (by decide) (by decide)

/-! ## Extremes of a batch and bounds of the raw score -/

/-- An entry at `lowest` is rewritten to `MinNodeScore`, whatever the range is. -/
theorem rescale_lowest (lo oldRange newRange : Int) (ns : NodeScore) (hns : ns.Score = lo) :
    (rescale lo oldRange newRange ns).Score = MinNodeScore := by
  unfold rescale
  split
  · rfl
  · show add64 (quo64 (mul64 (sub64 ns.Score lo) newRange) oldRange) MinNodeScore = MinNodeScore
    rw [hns, sub64_self]
    unfold mul64 quo64 add64
    rw [zero_mul]
    have h0 : wrap64 0 = 0 := by decide
    rw [h0, Int.zero_tdiv, h0]
    decide

/-- The scan finds the minimum of every batch of `int64` scores that has one. -/
theorem scan_lowest_int64 {scores : List NodeScore} {lo : Int}
    (hint : ∀ s ∈ scores, isInt64 s.Score)
    (hlb : ∀ s ∈ scores, lo ≤ s.Score) (hlo : ∃ s ∈ scores, s.Score = lo) :
    (scan scores).2 = lo := by
  obtain ⟨m, hm, hmlo⟩ := hlo
  have hmi := hint m hm
  rw [hmlo] at hmi
  exact scan_lowest hlb ⟨m, hm, hmlo⟩ hmi.2

/-- On a node with a positive capacity `score` divides the wrapped scaled remainder. -/
theorem score_wrapped (h : Handle) (ni : NodeInfo) (nd : Node) (hnode : ni.node = some nd)
    (hcap : 0 < nd.capacityPods) :
    score h ni = Except.ok
      (Int.tdiv (wrap64 ((nd.capacityPods
        - ((ni.Pods.length : Int) + ((h.NominatedPodsForNode nd.Name).length : Int))) * 100))
        nd.capacityPods, none) := by
  rw [score_ok h ni nd hnode (by omega)]
  unfold quo64 mul64 sub64 add64 len64
  rw [wrap64_remaining, wrap64_of_isInt64 (tdiv_isInt64 (wrap64_isInt64 _) hcap)]

/-- The raw score can exceed 100 once the excess over the capacity is huge: a pod list of
184467440737095516 entries on a node of capacity 1 wraps the scaled remainder
to 116, and the raw score is 116. -/
theorem score_above_100_of_huge_pod_list :
    score (testHandle [])
        ⟨some ⟨"node1", 1⟩, List.replicate 184467440737095516 ⟨"rpod", false, ""⟩⟩
      = Except.ok (116, none) := by
  rw [score_wrapped (testHandle []) _ ⟨"node1", 1⟩ rfl (by decide)]
  have hl : ((testHandle []).NominatedPodsForNode "node1").length = 0 := rfl
  simp only [List.length_replicate, hl]
  rfl

/-- What the scan finds on a batch of `int64` scores with maximum `hi` and
minimum `lo`: `lowest` is always `lo`; `highest` is `hi` when `hi` is above
MinInt64, and stays at the initial -MaxInt64 when `hi` is MinInt64. -/
theorem scan_extremes (scores : List NodeScore) (hi lo : Int)
    (hint : ∀ s ∈ scores, isInt64 s.Score)
    (hub : ∀ s ∈ scores, s.Score ≤ hi) (hhi : ∃ s ∈ scores, s.Score = hi)
    (hlb : ∀ s ∈ scores, lo ≤ s.Score) (hlo : ∃ s ∈ scores, s.Score = lo) :
    (scan scores).2 = lo ∧ (minInt64 < hi → (scan scores).1 = hi) ∧
      (hi = minInt64 → (scan scores).1 = -maxInt64) := by
  refine ⟨scan_lowest_int64 hint hlb hlo, ?_, ?_⟩
  · intro hmin
    rw [scan_eq_of_ne hint hub hhi hlb hlo hmin]
  · intro hmin
    obtain ⟨h1, _, h3⟩ := foldl_scanStep_fst scores (-maxInt64, maxInt64)
    unfold scan
    rcases h3 with h3 | ⟨s, hs, h3⟩
    · exact h3
    · have := hub s hs
      simp only at h1
      unfold minInt64 at hmin
      unfold maxInt64 at h1 h3 ⊢
      omega

/-- C4 (amended): for every batch of `int64` scores whose maximum `hi` and
minimum `lo` differ, after `NormalizeScore` every entry that held `lo` has
score `MinNodeScore`, and, when `(hi - lo) * 100 ≤ MaxInt64`, every entry that
held `hi` has score `MaxNodeScore`, position by position. -/
theorem C4_extremes_to_bounds (scores : List NodeScore) (hi lo : Int)
    (hint : ∀ s ∈ scores, isInt64 s.Score)
    (hub : ∀ s ∈ scores, s.Score ≤ hi) (hhi : ∃ s ∈ scores, s.Score = hi)
    (hlb : ∀ s ∈ scores, lo ≤ s.Score) (hlo : ∃ s ∈ scores, s.Score = lo)
    (hne : hi ≠ lo) :
    List.Forall₂
      (fun (before after : NodeScore) =>
        (before.Score = lo → after.Score = MinNodeScore) ∧
        ((hi - lo) * 100 ≤ maxInt64 → before.Score = hi → after.Score = MaxNodeScore))
      scores (NormalizeScore scores).1 := by
  unfold NormalizeScore
  dsimp only
  rw [List.forall₂_map_right_iff, List.forall₂_same]
  intro ns hns
  constructor
  · intro h
    rw [scan_lowest_int64 hint hlb hlo]
    exact rescale_lowest lo _ _ ns h
  · intro hfit h
    obtain ⟨m, hm, hmlo⟩ := hlo
    have hmi := hint m hm
    have hmh := hub m hm
    unfold isInt64 at hmi
    have hmin : minInt64 < hi := by omega
    rw [scan_eq_of_ne hint hub hhi hlb ⟨m, hm, hmlo⟩ hmin]
    dsimp only
    rw [rescale_score ns (hlb ns hns) (hub ns hns) (by omega) hfit]
    simp only [h, MaxNodeScore, MinNodeScore, sub_zero, add_zero]
    exact Int.mul_tdiv_cancel_left 100 (fun h0 => hne (by omega))

/-- C4 (witness): in [0, 88, 100] the entry at 0 stays 0 and the entry at 100 stays 100. -/
theorem C4_extremes_to_bounds_witness :
    List.Forall₂
      (fun (before after : NodeScore) =>
        (before.Score = 0 → after.Score = MinNodeScore) ∧
        (((100 : Int) - 0) * 100 ≤ maxInt64 → before.Score = 100 →
          after.Score = MaxNodeScore))
      [⟨"node1", 0⟩, ⟨"node2", 88⟩, ⟨"node3", 100⟩]
      (NormalizeScore [⟨"node1", 0⟩, ⟨"node2", 88⟩, ⟨"node3", 100⟩]).1 :=
  C4_extremes_to_bounds [⟨"node1", 0⟩, ⟨"node2", 88⟩, ⟨"node3", 100⟩] 100 0
    (by decide) (by decide) (by decide) (by decide) (by decide) (by decide)

/-- C13 (amended): for every node with a positive pod capacity, the raw score is
at most 100 as long as the occupancy exceeds the capacity by at most
92233720368547758 pods; when the occupancy is within the capacity, the raw
score is 0 on a fully occupied node and is 100 only on an empty node; and when
moreover `(totalCapacity - (running + nominated)) * 100 ≤ MaxInt64`, the raw
score lies in [0, 100] and is 100 exactly when the node is empty. -/
theorem C13_score_bounds (h : Handle) (ni : NodeInfo) (nd : Node) (hnode : ni.node = some nd)
    (hcap : 0 < nd.capacityPods) :
    ∃ s : Int, score h ni = Except.ok (s, none) ∧
      ((ni.Pods.length : Int) + ((h.NominatedPodsForNode nd.Name).length : Int)
          ≤ nd.capacityPods + 92233720368547758 → s ≤ 100) ∧
      ((ni.Pods.length : Int) + ((h.NominatedPodsForNode nd.Name).length : Int)
          ≤ nd.capacityPods →
        ((ni.Pods.length : Int) + ((h.NominatedPodsForNode nd.Name).length : Int)
            = nd.capacityPods → s = 0) ∧
        (s = 100 →
          (ni.Pods.length : Int) + ((h.NominatedPodsForNode nd.Name).length : Int) = 0) ∧
        ((nd.capacityPods
            - ((ni.Pods.length : Int) + ((h.NominatedPodsForNode nd.Name).length : Int))) * 100
            ≤ maxInt64 →
          0 ≤ s ∧ s ≤ 100 ∧
          (s = 100 ↔
            (ni.Pods.length : Int) + ((h.NominatedPodsForNode nd.Name).length : Int) = 0))) := by
  refine ⟨_, score_wrapped h ni nd hnode hcap, ?_⟩
  have hocc : (0 : Int) ≤
      (ni.Pods.length : Int) + ((h.NominatedPodsForNode nd.Name).length : Int) := by omega
  generalize (ni.Pods.length : Int) + ((h.NominatedPodsForNode nd.Name).length : Int) = occ at *
  generalize nd.capacityPods = cap at *
  have hexact : isInt64 ((cap - occ) * 100) →
      Int.tdiv (wrap64 ((cap - occ) * 100)) cap = Int.tdiv ((cap - occ) * 100) cap := by
    intro hf
    rw [wrap64_of_isInt64 hf]
  have hle : occ ≤ cap + 92233720368547758 → Int.tdiv (wrap64 ((cap - occ) * 100)) cap ≤ 100 := by
    intro hex
    by_cases hU : (cap - occ) * 100 ≤ maxInt64
    · rw [hexact ⟨by unfold minInt64; omega, hU⟩]
      have h1 := tdiv_mono (x := (cap - occ) * 100) (y := 100 * cap) (c := cap) (by omega) hcap
      rwa [Int.mul_tdiv_cancel 100 (by omega)] at h1
    · have hw := (wrap64_isInt64 ((cap - occ) * 100)).2
      unfold maxInt64 at hU hw
      have h1 := tdiv_mono (c := cap) hw hcap
      have h3 : Int.tdiv 9223372036854775807 cap = 9223372036854775807 / cap :=
        Int.tdiv_eq_ediv (by decide) (by omega)
      have h2 : (9223372036854775807 : Int) / cap < 100 :=
        Int.ediv_lt_of_lt_mul hcap (by omega)
      omega
  refine ⟨hle, ?_⟩
  intro hin
  have h100 : Int.tdiv (wrap64 ((cap - occ) * 100)) cap = 100 → occ = 0 := by
    intro hs
    by_cases hU : (cap - occ) * 100 ≤ maxInt64
    · rw [hexact ⟨by unfold minInt64; omega, hU⟩,
        Int.tdiv_eq_ediv (by omega) (by omega)] at hs
      by_contra hne
      have : (cap - occ) * 100 / cap < 100 := Int.ediv_lt_of_lt_mul hcap (by omega)
      omega
    · have hw := (wrap64_isInt64 ((cap - occ) * 100)).2
      unfold maxInt64 at hU hw
      have h1 := tdiv_mono (c := cap) hw hcap
      have h3 : Int.tdiv 9223372036854775807 cap = 9223372036854775807 / cap :=
        Int.tdiv_eq_ediv (by decide) (by omega)
      have h2 : (9223372036854775807 : Int) / cap < 100 :=
        Int.ediv_lt_of_lt_mul hcap (by omega)
      omega
  refine ⟨?_, h100, ?_⟩
  · intro hfull
    have h0 : wrap64 0 = 0 := by decide
    rw [hfull, sub_self, zero_mul, h0, Int.zero_tdiv]
  · intro hU
    have hf : isInt64 ((cap - occ) * 100) := ⟨by unfold minInt64; omega, hU⟩
    refine ⟨?_, hle (by omega), h100, ?_⟩
    · rw [hexact hf]
      have h1 := tdiv_mono (x := 0) (y := (cap - occ) * 100) (c := cap) (by omega) hcap
      rwa [Int.zero_tdiv] at h1
    · intro h0
      rw [hexact hf, h0, sub_zero, mul_comm]
      exact Int.mul_tdiv_cancel 100 (by omega)

/-- C13 (witness): the theorem at the empty node of capacity 3 * 2^61, whose raw
score is -1. -/
theorem C13_score_bounds_witness :
    ∃ s : Int,
      score (testHandle []) (makeNodeInfo "node1" 0 0 0 6917529027641081856)
        = Except.ok (s, none) ∧
      ((((makeNodeInfo "node1" 0 0 0 6917529027641081856).Pods.length : Nat) : Int)
          + ((((testHandle []).NominatedPodsForNode "node1").length : Nat) : Int)
          ≤ 6917529027641081856 + 92233720368547758 → s ≤ 100) ∧
      ((((makeNodeInfo "node1" 0 0 0 6917529027641081856).Pods.length : Nat) : Int)
          + ((((testHandle []).NominatedPodsForNode "node1").length : Nat) : Int)
          ≤ 6917529027641081856 →
        ((((makeNodeInfo "node1" 0 0 0 6917529027641081856).Pods.length : Nat) : Int)
            + ((((testHandle []).NominatedPodsForNode "node1").length : Nat) : Int)
            = 6917529027641081856 → s = 0) ∧
        (s = 100 →
          (((makeNodeInfo "node1" 0 0 0 6917529027641081856).Pods.length : Nat) : Int)
            + ((((testHandle []).NominatedPodsForNode "node1").length : Nat) : Int) = 0) ∧
        ((6917529027641081856
            - ((((makeNodeInfo "node1" 0 0 0 6917529027641081856).Pods.length : Nat) : Int)
              + ((((testHandle []).NominatedPodsForNode "node1").length : Nat) : Int))) * 100
            ≤ maxInt64 →
          0 ≤ s ∧ s ≤ 100 ∧
          (s = 100 ↔
            (((makeNodeInfo "node1" 0 0 0 6917529027641081856).Pods.length : Nat) : Int)
              + ((((testHandle []).NominatedPodsForNode "node1").length : Nat) : Int) = 0))) :=
  C13_score_bounds (testHandle []) (makeNodeInfo "node1" 0 0 0 6917529027641081856)
    ⟨"node1", 6917529027641081856⟩ rfl (by decide)

end PodCapacityOfNode
